import Mathlib

/-!
# Verification of the PyDSTK `dscore/system.py` core

A shallow embedding, over exact rational arithmetic, of the linear
dynamical system (LDS) core of the PyDSTK repository
(`src/dscore/system.py`), together with theorems settling the frozen
claims about it.

Modelling conventions:
* `numpy` matrices become `Matrix (Fin m) (Fin n) ℚ`; 1-D arrays become
  `Fin n → ℚ`.
* The external dense-linear-algebra primitives that the source calls
  (`scipy.linalg.eig`, `np.linalg.svd`, `np.linalg.pinv`) are treated as
  oracles: the embedded functions take the oracle (or its output for a
  fixed input) as an explicit argument, exactly as the design document
  declares them assumed-correct external collaborators.  Claims that
  rely on a property of the oracle's output state that property as a
  hypothesis.
* Complex scalars returned by `scipy.linalg.eig` are embedded as exact
  pairs `ℚ × ℚ` of (real part, imaginary part).
* Fallible code (`raise ErrorDS`, `numpy` shape errors,
  `np.linalg.LinAlgError` on exactly singular input) returns `Except`.
-/

namespace PyDSTK

/-! ## Preliminaries: a computable matrix inverse

`np.linalg.inv` over exact arithmetic: a computable inverse for square
rational matrices, agreeing with Mathlib's (noncomputable) `Matrix.inv`
on every input, so that Mathlib's nonsingular-inverse lemmas apply. -/

/-- Computable inverse of a square rational matrix (adjugate formula);
equal to Mathlib's `Matrix.inv` by `cinv_eq_inv`. -/
def cinv {n : ℕ} (M : Matrix (Fin n) (Fin n) ℚ) : Matrix (Fin n) (Fin n) ℚ :=
  if M.det = 0 then 0 else M.det⁻¹ • M.adjugate

/-! ## The model entity (`LinearDS` parameters)

The eight numeric parameter fields a successful identification
populates (`_Ahat`, `_Chat`, `_Rhat`, `_Qhat`, `_Xhat`, `_Yavg`,
`_initM0`, `_initS0`).  `k` is the state order (`nStates`), `D` the
observation dimensionality, `T` the number of training observations. -/

structure LDSParams (k D T : ℕ) where
  Ahat : Matrix (Fin k) (Fin k) ℚ
  Chat : Matrix (Fin D) (Fin k) ℚ
  Rhat : ℚ
  Qhat : Matrix (Fin k) (Fin k) ℚ
  Xhat : Matrix (Fin k) (Fin T) ℚ
  Yavg : Fin D → ℚ
  initM0 : Fin k → ℚ
  initS0 : Fin k → ℚ

/-- Population variance of all entries of a matrix: `np.var(E.ravel())`
(`ddof = 0`). -/
def popVar {D T : ℕ} (E : Matrix (Fin D) (Fin T) ℚ) : ℚ :=
  let n : ℚ := (D * T : ℕ)
  let mu : ℚ := (∑ d, ∑ t, E d t) / n
  (∑ d, ∑ t, (E d t - mu) ^ 2) / n

/-- `Yavg = np.mean(Y, axis=1)`: the per-dimension mean of the
observations (mean of each row across the `T` columns). -/
def rowMean {D T : ℕ} (Y : Matrix (Fin D) (Fin T) ℚ) : Fin D → ℚ :=
  fun d => (∑ t, Y d t) / (T : ℚ)

/-- `Y - Yavg[:, np.newaxis]`: subtract the per-dimension mean from
every column. -/
def centered {D T : ℕ} (Y : Matrix (Fin D) (Fin T) ℚ) : Matrix (Fin D) (Fin T) ℚ :=
  Matrix.of fun d t => Y d t - rowMean Y d

/-! ## System identifier: `LinearDS.suboptimalSysID`

The exact-SVD path (`approx = False`, so `np.linalg.svd(Y,
full_matrices=0)` is the factorization used).  The SVD is an oracle
`svdO`, returning, for a `D × T` input, the triple `(U, S, V)` with
`U : D × K`, `S : K`, `V : K × T` and `K = min D T`, exactly the shapes
`full_matrices=0` produces.  The Moore–Penrose pseudo-inverse used for
the transition fit is an oracle `pinvO`.

`T` is written `Tm + 1` so that the slices `X[:, 0:T-1]` and
`X[:, 1:T]` (`Tm` columns each) and the first column `X[:, 0]` are
well-typed without side conditions. -/

/-- Shape of the exact-SVD oracle output for a `D × T` input. -/
abbrev SvdOut (D T : ℕ) :=
  Matrix (Fin D) (Fin (min D T)) ℚ × (Fin (min D T) → ℚ) × Matrix (Fin (min D T)) (Fin T) ℚ

/-- `LinearDS.suboptimalSysID` (source lines 572–632), exact-SVD path.
Out-of-range slice positions (only reachable when `k > min D T`, a case
outside every claim's precondition) read as `0`. -/
def suboptimalSysID {k D Tm : ℕ}
    (svdO : Matrix (Fin D) (Fin (Tm + 1)) ℚ → SvdOut D (Tm + 1))
    (pinvO : Matrix (Fin k) (Fin Tm) ℚ → Matrix (Fin Tm) (Fin k) ℚ)
    (Y : Matrix (Fin D) (Fin (Tm + 1)) ℚ) : LDSParams k D (Tm + 1) :=
  let Yavg := rowMean Y
  let Yc := centered Y
  let USV := svdO Yc
  let U := USV.1
  let S := USV.2.1
  let V := USV.2.2
  -- Chat = U[:, 0:nStates]
  let Chat : Matrix (Fin D) (Fin k) ℚ :=
    Matrix.of fun d i => if h : (i : ℕ) < min D (Tm + 1) then U d ⟨i, h⟩ else 0
  -- Xhat = np.diag(S)[0:nStates, 0:nStates] * np.asmatrix(V[0:nStates, :])
  let Xhat : Matrix (Fin k) (Fin (Tm + 1)) ℚ :=
    Matrix.of fun i t => if h : (i : ℕ) < min D (Tm + 1) then S ⟨i, h⟩ * V ⟨i, h⟩ t else 0
  -- initM0 = np.mean(Xhat[:, 0], axis=1): the row-wise mean of a k×1
  -- matrix, i.e. each entry is the average of the single entry in its row.
  let initM0 : Fin k → ℚ := fun i => (∑ _j : Fin 1, Xhat i 0) / (1 : ℚ)
  -- initS0 = np.zeros((nStates, 1))
  let initS0 : Fin k → ℚ := fun _ => 0
  -- phi1 = Xhat[:, 0:tau-1], phi2 = Xhat[:, 1:tau]
  let phi1 : Matrix (Fin k) (Fin Tm) ℚ := Matrix.of fun i t => Xhat i t.castSucc
  let phi2 : Matrix (Fin k) (Fin Tm) ℚ := Matrix.of fun i t => Xhat i t.succ
  -- Ahat = phi2 * np.linalg.pinv(phi1)
  let Ahat := phi2 * pinvO phi1
  -- Vhat = phi2 - Ahat * phi1; Qhat = 1.0/Vhat.shape[1] * Vhat * Vhat.T
  let Vhat := phi2 - Ahat * phi1
  let Qhat := ((Tm : ℚ))⁻¹ • (Vhat * Vhat.transpose)
  -- errorY = Y - Chat * Xhat  (Y has been re-bound to the centered data)
  let errorY := Yc - Chat * Xhat
  let Rhat := popVar errorY
  ⟨Ahat, Chat, Rhat, Qhat, Xhat, Yavg, initM0, initS0⟩

/-! ## The mutable `LinearDS` object and `check()`

A `LinearDS` instance as Python sees it: the eight numeric parameter
slots are `None` (here `Option.none`) until an identification populates
them; `_approx`, `_verbose`, `_nStates` (the type index `k`) and
`_ready` are set at construction and are never `None`.  `check()`
iterates `self.__dict__` and reports `False` iff some attribute is
`None`, so here: iff some of the eight `Option` fields is `none`. -/

structure LinearDSObj (k D T : ℕ) where
  Ahat : Option (Matrix (Fin k) (Fin k) ℚ)
  Chat : Option (Matrix (Fin D) (Fin k) ℚ)
  Rhat : Option ℚ
  Qhat : Option (Matrix (Fin k) (Fin k) ℚ)
  Xhat : Option (Matrix (Fin k) (Fin T) ℚ)
  Yavg : Option (Fin D → ℚ)
  initM0 : Option (Fin k → ℚ)
  initS0 : Option (Fin k → ℚ)
  approx : Bool
  verbose : Bool
  ready : Bool

/-- `LinearDS.__init__`: every numeric slot `None`, `_ready = False`. -/
def mkLinearDS (k D T : ℕ) (approx verbose : Bool) : LinearDSObj k D T :=
  ⟨none, none, none, none, none, none, none, none, approx, verbose, false⟩

/-- `LinearDS.check` (source lines 462–477): `True` iff no attribute in
`self.__dict__` is `None`; the non-`Option` fields (`_approx`,
`_verbose`, `_nStates`, `_ready`) can never be `None`, so only the
eight numeric slots are tested — and only for presence, their values
are never inspected. -/
def LinearDSObj.check {k D T : ℕ} (s : LinearDSObj k D T) : Bool :=
  s.Ahat.isSome && s.Chat.isSome && s.Rhat.isSome && s.Qhat.isSome &&
  s.Xhat.isSome && s.Yavg.isSome && s.initM0.isSome && s.initS0.isSome

/-- Object-level `suboptimalSysID`: runs the functional identification,
stores every field, then (`if self.check(): self._ready = True`) marks
the model ready only if the post-condition validity check passes. -/
def objSysID {k D Tm : ℕ}
    (svdO : Matrix (Fin D) (Fin (Tm + 1)) ℚ → SvdOut D (Tm + 1))
    (pinvO : Matrix (Fin k) (Fin Tm) ℚ → Matrix (Fin Tm) (Fin k) ℚ)
    (s : LinearDSObj k D (Tm + 1)) (Y : Matrix (Fin D) (Fin (Tm + 1)) ℚ) :
    LinearDSObj k D (Tm + 1) :=
  let p := suboptimalSysID svdO pinvO Y
  let s1 : LinearDSObj k D (Tm + 1) :=
    { s with
      Ahat := some p.Ahat, Chat := some p.Chat, Rhat := some p.Rhat,
      Qhat := some p.Qhat, Xhat := some p.Xhat, Yavg := some p.Yavg,
      initM0 := some p.initM0, initS0 := some p.initS0 }
  { s1 with ready := if s1.check then true else s1.ready }

/-! ## Cross-model aligner: `LinearDS.stateSpaceMap`

`stateSpaceMap(lds1, lds2)` shallow-copies `lds2` and reassigns its
transformed parameters with `F = pinv(lds2._Chat) * lds1._Chat`; in the
claim's target/source vocabulary the model whose parameters are
transformed (`lds2`) is the target.  `np.linalg.pinv` is the oracle
`pinvO`.  The returned scalar is the sum of element-wise absolute
differences of the *original* (un-transformed) parameter sets. -/

/-- The alignment transform `F = np.asmatrix(np.linalg.pinv(Chat2)) * Chat1`. -/
def alignF {k D T1 T2 : ℕ}
    (pinvO : Matrix (Fin D) (Fin k) ℚ → Matrix (Fin k) (Fin D) ℚ)
    (lds1 : LDSParams k D T1) (lds2 : LDSParams k D T2) : Matrix (Fin k) (Fin k) ℚ :=
  pinvO lds2.Chat * lds1.Chat

/-- `LinearDS.stateSpaceMap` (source lines 638–685).  The copy's fields
are reassigned one at a time in source order; note that the `initS0`
assignment reads `lds._initS0`, which at that point still holds the
shallow copy's (i.e. `lds2`'s) value. -/
def stateSpaceMap {k D T1 T2 : ℕ}
    (pinvO : Matrix (Fin D) (Fin k) ℚ → Matrix (Fin k) (Fin D) ℚ)
    (lds1 : LDSParams k D T1) (lds2 : LDSParams k D T2) :
    LDSParams k D T2 × ℚ :=
  -- lds = copy.copy(lds2)
  let lds0 := lds2
  let F := alignF pinvO lds1 lds2
  -- sequential reassignments on the copy
  let lds3 := { lds0 with Chat := lds2.Chat * F }
  let lds4 := { lds3 with Ahat := F.transpose * lds2.Ahat * F }
  let lds5 := { lds4 with Qhat := F.transpose * lds2.Qhat * F }
  let lds6 := { lds5 with Rhat := lds2.Rhat }
  let lds7 := { lds6 with initM0 := F.transpose.mulVec lds2.initM0 }
  -- lds._initS0 = np.diag(F.T * np.diag(lds._initS0.ravel()) * F)
  let lds8 := { lds7 with
    initS0 := fun i => (F.transpose * Matrix.diagonal lds7.initS0 * F) i i }
  let err : ℚ :=
    (∑ d, ∑ i, |lds2.Chat d i - lds1.Chat d i|) +
    (∑ i, ∑ j, |lds2.Ahat i j - lds1.Ahat i j|) +
    (∑ i, ∑ j, |lds2.Qhat i j - lds1.Qhat i j|) +
    |lds2.Rhat - lds1.Rhat| +
    (∑ i, |lds2.initM0 i - lds1.initM0 i|) +
    (∑ i, |lds2.initS0 i - lds1.initS0 i|) +
    (∑ d, |lds2.Yavg d - lds1.Yavg d|)
  (lds8, err)

/-! ## Canonicalizer: `LinearDS.computeRJF`

`scipy.linalg.eig(A)` is the oracle: its output is a vector `eVals` of
complex eigenvalues and a matrix `eVecs` whose columns are the matching
complex eigenvectors, both embedded exactly as pairs `ℚ × ℚ` of
(real, imaginary) parts.  A genuine oracle output satisfies
`isEigenpair` at every column.

The routine (source lines 239–323) sorts the eigenpairs by ascending
`|imag|`, re-sorts the real-eigenvalue prefix by descending real part,
then walks the ordered pairs building the block-diagonal `J`, the
transform-column matrix `Q` and the real-block indicator `X`, and
returns `(J, np.linalg.inv(Q), X)`.  `np.linalg.inv` raises
`LinAlgError` on a singular input, and the walk raises `IndexError` if
an unpaired non-real eigenvalue sits in the last slot; both are
`Except.error` here. -/

/-- A complex scalar as an exact (real part, imaginary part) pair. -/
abbrev CQ := ℚ × ℚ

/-- One sorted eigenpair: the eigenvalue and the eigenvector, the
latter as a total function on row positions (`0` beyond row `N - 1`). -/
abbrev EigPair := CQ × (ℕ → CQ)

/-- `A * v = lam * v` over ℂ, written on real and imaginary parts. -/
def isEigenpair {N : ℕ} (A : Matrix (Fin N) (Fin N) ℚ) (lam : CQ) (v : ℕ → CQ) : Prop :=
  (∀ i : Fin N, (∑ l, A i l * (v (l : ℕ)).1) = lam.1 * (v (i : ℕ)).1 - lam.2 * (v (i : ℕ)).2) ∧
  (∀ i : Fin N, (∑ l, A i l * (v (l : ℕ)).2) = lam.2 * (v (i : ℕ)).1 + lam.1 * (v (i : ℕ)).2)

instance {N : ℕ} (A : Matrix (Fin N) (Fin N) ℚ) (lam : CQ) (v : ℕ → CQ) :
    Decidable (isEigenpair A lam v) := by unfold isEigenpair; infer_instance

/-- Column `j` of the eigenvector matrix, as a total row-position
function. -/
def eigCol {N : ℕ} (eVecs : Matrix (Fin N) (Fin N) CQ) (j : Fin N) : ℕ → CQ :=
  fun i => if h : i < N then eVecs ⟨i, h⟩ j else 0

/-- The eigenpair list as returned by the `eig` oracle: the `j`-th
entry pairs `eVals[j]` with column `j` of `eVecs`. -/
def eigPairs {N : ℕ} (eVals : Fin N → CQ) (eVecs : Matrix (Fin N) (Fin N) CQ) :
    List EigPair :=
  (List.finRange N).map fun j => (eVals j, eigCol eVecs j)

/-- The ordering imposed by the source: sort all pairs by ascending
absolute imaginary part (`np.argsort(np.abs(np.imag(eVals)))`), then
overwrite the leading slots with the exactly-real pairs re-sorted by
descending real part.  Because the first sort puts the zero-imaginary
pairs first, the overwritten slots `0 .. len(realP)-1` are exactly the
real pairs, and the remaining slots are unchanged. -/
def sortEigPairs (l : List EigPair) : List EigPair :=
  let byImag := l.insertionSort fun p q => |p.1.2| ≤ |q.1.2|
  let realP := byImag.filter fun p => p.1.2 = 0
  let realSorted := realP.insertionSort fun p q => q.1.1 ≤ p.1.1
  realSorted ++ byImag.drop realSorted.length

/-- The block-building walk (source lines 307–322).  `cnt` is the
current column; a real pair writes one diagonal entry of `J`, one
normalized column of `Q` and indicator `1`; a non-real pair writes a
2×2 rotation-like block, two columns (real and imaginary parts of the
eigenvector) and indicators `(1, 0)`, consuming the following slot.  A
non-real pair in the last slot would index out of bounds (`none`). -/
def buildRJF (N : ℕ) : ℕ → List EigPair →
    Option (Matrix (Fin N) (Fin N) ℚ × Matrix (Fin N) (Fin N) ℚ × (Fin N → ℚ))
  | _, [] => some (0, 0, fun _ => 0)
  | cnt, (lam, v) :: rest =>
    if lam.2 = 0 then
      (buildRJF N (cnt + 1) rest).map fun JQX =>
        (Matrix.of fun i j =>
            if (i : ℕ) = cnt ∧ (j : ℕ) = cnt then lam.1 else JQX.1 i j,
         Matrix.of fun i j =>
            if (j : ℕ) = cnt then (v (i : ℕ)).1 / (v 0).1 else JQX.2.1 i j,
         fun j => if (j : ℕ) = cnt then 1 else JQX.2.2 j)
    else
      match rest with
      | [] => none
      | _ :: rest2 =>
        (buildRJF N (cnt + 2) rest2).map fun JQX =>
          (Matrix.of fun i j =>
              if (i : ℕ) = cnt ∧ (j : ℕ) = cnt then lam.1
              else if (i : ℕ) = cnt ∧ (j : ℕ) = cnt + 1 then lam.2
              else if (i : ℕ) = cnt + 1 ∧ (j : ℕ) = cnt then -lam.2
              else if (i : ℕ) = cnt + 1 ∧ (j : ℕ) = cnt + 1 then lam.1
              else JQX.1 i j,
           Matrix.of fun i j =>
              if (j : ℕ) = cnt then (v (i : ℕ)).1
              else if (j : ℕ) = cnt + 1 then (v (i : ℕ)).2
              else JQX.2.1 i j,
           fun j =>
              if (j : ℕ) = cnt then 1
              else if (j : ℕ) = cnt + 1 then 0 else JQX.2.2 j)

/-- `LinearDS.computeRJF` (source lines 239–323): sort the eigenpairs,
build `(J, Q, X)`, and return `(J, inv(Q), X)`.  The input matrix is
square by type, so the explicit shape guard of the source cannot fire. -/
def computeRJF {N : ℕ} (_A : Matrix (Fin N) (Fin N) ℚ)
    (eVals : Fin N → CQ) (eVecs : Matrix (Fin N) (Fin N) CQ) :
    Except String (Matrix (Fin N) (Fin N) ℚ × Matrix (Fin N) (Fin N) ℚ × (Fin N → ℚ)) :=
  match buildRJF N 0 (sortEigPairs (eigPairs eVals eVecs)) with
  | none => .error "IndexError"
  | some (J, Q, X) =>
      if Q.det = 0 then .error "Singular matrix" else .ok (J, cinv Q, X)

/-! ## `LinearDS.computeJCFTransform`

Source lines 385–442.  Builds the real Jordan form of `A`, forms
`M = kron(I, J) + kron(-Aᵀ, I)` stacked over `T_eq = kron(I, Cc)`,
sets the right-hand side to zero except for the last `N` entries
(the column sums of `C`), solves by pseudo-inverse least squares
(oracle `pinvO` stands for `np.linalg.pinv`), and then reshapes the
solution with the hard-coded target shape `(5, 5)` of the source —
`np.reshape` raises `ValueError` whenever `N² ≠ 25`.

Row indices of the stacked system are `(Fin N × Fin N) ⊕ Fin N` (the
`N²` rows of `M` followed by the `N` rows of `T_eq`); column indices
are the Kronecker pairs `(j₁, j₂)`, i.e. flat position `N·j₁ + j₂`. -/

/-- `np.vstack` of two blocks with equal column shape. -/
def vstack {m1 m2 c : Type*} (M1 : Matrix m1 c ℚ) (M2 : Matrix m2 c ℚ) :
    Matrix (m1 ⊕ m2) c ℚ :=
  Matrix.of fun r j => Sum.elim (fun r1 => M1 r1 j) (fun r2 => M2 r2 j) r

/-- `np.kron` of two square matrices (row-major pair flattening). -/
def kronSq {N : ℕ} (A B : Matrix (Fin N) (Fin N) ℚ) :
    Matrix (Fin N × Fin N) (Fin N × Fin N) ℚ :=
  Matrix.of fun i j => A i.1 j.1 * B i.2 j.2

/-- `np.kron(I, c)` for a 1-D second factor `c` (treated by numpy as a
`1 × N` row), giving an `N × N²` matrix. -/
def kronRow {N : ℕ} (A : Matrix (Fin N) (Fin N) ℚ) (c : Fin N → ℚ) :
    Matrix (Fin N) (Fin N × Fin N) ℚ :=
  Matrix.of fun i j => A i j.1 * c j.2

/-- `LinearDS.computeJCFTransform` (source lines 385–442).  `pinvO` is
the `np.linalg.pinv` oracle for the stacked system; `eVals`/`eVecs`
are the `scipy.linalg.eig` oracle output for `A` consumed by the inner
`computeRJF` call.  The `(A, C)` shape guards of the source hold by
type.  The final `.reshape((5, 5), order='F')` is the source's literal
hard-coded target shape. -/
def computeJCFTransform {N D : ℕ}
    (pinvO : Matrix ((Fin N × Fin N) ⊕ Fin N) (Fin N × Fin N) ℚ →
      Matrix (Fin N × Fin N) ((Fin N × Fin N) ⊕ Fin N) ℚ)
    (eVals : Fin N → CQ) (eVecs : Matrix (Fin N) (Fin N) CQ)
    (A : Matrix (Fin N) (Fin N) ℚ) (C : Matrix (Fin D) (Fin N) ℚ) :
    Except String (Matrix (Fin 5) (Fin 5) ℚ) :=
  match computeRJF A eVals eVecs with
  | .error e => .error e
  | .ok (J, _Q, Cc) =>
    let I : Matrix (Fin N) (Fin N) ℚ := 1
    let M := kronSq I J + kronSq (-A.transpose) I
    let Teq := kronRow I Cc
    let a := vstack M Teq
    -- x = np.zeros(N² + N); x[-N:] = colSumC
    let colSumC : Fin N → ℚ := fun j => ∑ d, C d j
    let x : (Fin N × Fin N) ⊕ Fin N → ℚ := Sum.elim (fun _ => 0) colSumC
    let Pvec : Fin N × Fin N → ℚ := (pinvO a).mulVec x
    -- P = (pinv(a) * x).reshape((5, 5), order='F')
    if h5 : N = 5 then
      .ok (Matrix.of fun i j => Pvec (Fin.cast h5.symm j, Fin.cast h5.symm i))
    else
      .error "cannot reshape array into shape (5,5)"

/-! ## Synthesizer: `LinearDS.synthesize`

Source lines 480–569.  The mode is an optional string — embedded as an
optional list of characters, so that `mode.find(c) >= 0` becomes a
(computable) list membership test — whose characters `s`, `q`, `r`
switch state reuse, state-noise suppression and observation noise.  The noise branches of the source call `np.rand` /
`np.randn`, attributes that do not exist in `numpy` (the library only
has `np.random.rand` / `np.random.randn`), so any loop iteration that
reaches a noise-injection line raises `AttributeError`; the embedded
synthesizer returns that outcome as `SynthErr.npRandMissing`.  The
pre-loop square-root and SVD computations (`np.sqrt(initS0)`,
`np.linalg.svd(Qhat)`) are external numeric primitives that cannot
fail on the claim-relevant paths and are taken as oracles `sqrtO`,
`svdQO`; they do not influence any non-noise output entry. -/

inductive SynthErr where
  | notReady
  | noMode
  | npRandMissing
deriving DecidableEq

/-- The synthesized pair `(I, X)`: the effective number of frames
(`tau`, or the stored trajectory length when mode contains `s`), and
the observation/state matrices as total entry functions (zero outside
the `D × tauEff` and `k × tauEff` ranges, matching the `np.zeros`
initialization). -/
structure SynthOut (D k : ℕ) where
  tauEff : ℕ
  obsI : ℕ → ℕ → ℚ
  stX : ℕ → ℕ → ℚ

/-- The simulated state sequence when original states are not reused
and state noise is suppressed: `X₀ = initM0`, `X_{t+1} = Ahat·X_t`. -/
def stateSeq {k : ℕ} (Ahat : Matrix (Fin k) (Fin k) ℚ) (initM0 : Fin k → ℚ) :
    ℕ → Fin k → ℚ
  | 0 => initM0
  | t + 1 => Ahat.mulVec (stateSeq Ahat initM0 t)

/-- `LinearDS.synthesize` (source lines 480–569). -/
def synthesize {k D T : ℕ} (sqrtO : ℚ → ℚ)
    (svdQO : Matrix (Fin k) (Fin k) ℚ →
      Matrix (Fin k) (Fin k) ℚ × (Fin k → ℚ) × Matrix (Fin k) (Fin k) ℚ)
    (p : LDSParams k D T) (ready : Bool) (tau : ℕ) (mode : Option (List Char)) :
    Except SynthErr (SynthOut D k) :=
  if ready = false then .error .notReady
  else
    match mode with
    | none => .error .noMode
    | some m =>
      let hasS := m.contains 's'
      let hasQ := m.contains 'q'
      let hasR := m.contains 'r'
      -- 's' overrides tau with the stored trajectory length
      let tauEff := if hasS then T else tau
      -- pre-loop noise set-up (pure library calls, results unused unless
      -- a noise line is reached): stdR, stdS, Bhat
      let _stdR := sqrtO p.Rhat
      let _stdS := fun i => sqrtO (p.initS0 i)
      let _Bhat :=
        let USV := svdQO p.Qhat
        Matrix.of fun i j => USV.1 i j * sqrtO (USV.2.1 j)
      -- the state sequence the loop realizes
      let Xcol : ℕ → Fin k → ℚ :=
        if hasS then
          fun t i => if h : t < T then p.Xhat i ⟨t, h⟩ else 0
        else stateSeq p.Ahat p.initM0
      -- first loop iteration to reach a noise-injection line raises
      -- AttributeError (np.rand / np.randn do not exist)
      if ¬hasS ∧ ¬hasQ ∧ 0 < tauEff then .error .npRandMissing
      else if hasR ∧ 0 < tauEff then .error .npRandMissing
      else
        .ok
          { tauEff := tauEff
            obsI := fun d t =>
              if hd : d < D then
                if t < tauEff then
                  (∑ i, p.Chat ⟨d, hd⟩ i * Xcol t i) + p.Yavg ⟨d, hd⟩
                else 0
              else 0
            stX := fun i t =>
              if hi : i < k then
                if t < tauEff then Xcol t ⟨i, hi⟩ else 0
              else 0 }

/-! ## Online windowed estimator: `OnlineLinearDS`

Source lines 750–814.  The circular buffer is a list of `bufLen`
optional observation vectors, oldest first; `update` appends on the
right and evicts on the left.  Re-identification replaces the model
parameters by running `suboptimalSysID` on the buffer contents; for
the temporal claims what matters is *when* that happens and on what
data, so the state records the contents of the buffer at the last
re-identification (`fitted`), and `update` additionally reports
whether this push re-identified. -/

structure OnlineDS (D : ℕ) where
  buf : List (Option (Fin D → ℚ))
  nShift : ℕ
  cnt : ℤ
  fitted : Option (List (Option (Fin D → ℚ)))

/-- `OnlineLinearDS.__init__` with `bufLen` slots and shift `nShift`
(the `nShift == 0` construction guard is reflected in the claims'
`1 ≤ nShift` hypothesis): buffer all-`None`, countdown `nShift - 1`. -/
def OnlineDS.init (D bufLen nShift : ℕ) : OnlineDS D :=
  ⟨List.replicate bufLen none, nShift, (nShift : ℤ) - 1, none⟩

/-- `OnlineLinearDS.hasChanged` (source lines 789–792). -/
def OnlineDS.hasChanged {D : ℕ} (s : OnlineDS D) : Bool :=
  s.cnt = (s.nShift : ℤ)

/-- `OnlineLinearDS.update` (source lines 795–814); also returns
whether this push re-triggered the identification. -/
def OnlineDS.update {D : ℕ} (s : OnlineDS D) (x : Fin D → ℚ) :
    OnlineDS D × Bool :=
  -- self._buf.append(x): deque of maxlen bufLen evicts on the left
  let b := s.buf ++ [some x]
  let buf := b.drop (b.length - s.buf.length)
  if none ∈ buf then
    -- rampup time ... do nothing
    ({ s with buf := buf }, false)
  else
    let c := s.cnt - 1
    if c = 0 ∨ s.nShift = 1 then
      ({ s with buf := buf, cnt := (s.nShift : ℤ), fitted := some buf }, true)
    else
      ({ s with buf := buf, cnt := c }, false)

/-- A sequence of `update` calls from a given state. -/
def OnlineDS.run {D : ℕ} (s : OnlineDS D) (xs : List (Fin D → ℚ)) : OnlineDS D :=
  xs.foldl (fun t x => (t.update x).1) s

/-- The Moore–Penrose pseudo-inverse of a full-column-rank matrix:
`pinv(C) = (Cᵀ·C)⁻¹·Cᵀ`.  This is the value `np.linalg.pinv` returns
whenever `Cᵀ·C` is invertible (full column rank). -/
def pinvCR {D k : ℕ} (C : Matrix (Fin D) (Fin k) ℚ) : Matrix (Fin k) (Fin D) ℚ :=
  cinv (C.transpose * C) * C.transpose

/-! ## Concrete instances used by witnesses and counterexamples -/

/-- Similarity witness input: `A = [[0,1],[1,0]]`. -/
def exRJF_A : Matrix (Fin 2) (Fin 2) ℚ := !![0, 1; 1, 0]

/-- Its exact eigenvalues `1, -1`. -/
def exRJF_vals : Fin 2 → CQ := ![(1, 0), (-1, 0)]

/-- Its exact eigenvectors `(1,1)` and `(1,-1)` as columns. -/
def exRJF_vecs : Matrix (Fin 2) (Fin 2) CQ := !![((1 : ℚ), (0 : ℚ)), (1, 0); (1, 0), (-1, 0)]

/-- The spec's own MATLAB example matrix `[[1,-3,-2],[-1,1,-1],[2,4,5]]`
(eigenvalues `3, 2, 2`, defective at `2`). -/
def defRJF_A : Matrix (Fin 3) (Fin 3) ℚ := !![1, -3, -2; -1, 1, -1; 2, 4, 5]

/-- Its exact eigenvalues. -/
def defRJF_vals : Fin 3 → CQ := ![(3, 0), (2, 0), (2, 0)]

/-- Exact eigenvectors: `(1,0,-1)` for `3` and (necessarily parallel
copies of) `(1,1,-2)` for the defective eigenvalue `2`. -/
def defRJF_vecs : Matrix (Fin 3) (Fin 3) CQ :=
  !![((1 : ℚ), (0 : ℚ)), (1, 0), (1, 0); (0, 0), (1, 0), (1, 0); (-1, 0), (-2, 0), (-2, 0)]


/-- JCF failing input: `A = ones((3,3))` (diagonalizable, eigenvalues
`3, 0, 0`, all eigenvector first coordinates nonzero). -/
def exJCF_A : Matrix (Fin 3) (Fin 3) ℚ := !![1, 1, 1; 1, 1, 1; 1, 1, 1]

/-- Its exact eigenvalues. -/
def exJCF_vals : Fin 3 → CQ := ![(3, 0), (0, 0), (0, 0)]

/-- Its exact eigenvectors `(1,1,1)`, `(1,-1,0)`, `(1,0,-1)` as columns. -/
def exJCF_vecs : Matrix (Fin 3) (Fin 3) CQ :=
  !![((1 : ℚ), (0 : ℚ)), (1, 0), (1, 0); (1, 0), (-1, 0), (0, 0); (1, 0), (0, 0), (-1, 0)]

/-- A compatible `1 × 3` observation matrix. -/
def exJCF_C : Matrix (Fin 1) (Fin 3) ℚ := !![1, 1, 1]

/-- C3 witness data: a 1-state, 1-dimensional, 2-frame run. -/
def exID_Y : Matrix (Fin 1) (Fin 2) ℚ := !![1, 3]

/-- C3 witness SVD oracle. -/
def exID_svd : Matrix (Fin 1) (Fin 2) ℚ → SvdOut 1 2 := fun _ => (!![1], ![2], !![1/2, -1/2])

/-- C3 witness pseudo-inverse oracle. -/
def exID_pinv : Matrix (Fin 1) (Fin 1) ℚ → Matrix (Fin 1) (Fin 1) ℚ := fun _ => !![0]

/-- C4 counterexample data: `D = 2`, `T = 4`, `k = 2`; the centered
data equals `Y` itself and has the exact singular value decomposition
`U = I`, `S = (2, 1)`, `V` with rows `(1/2,1/2,-1/2,-1/2)` and
`(1/2,-1/2,1/2,-1/2)`. -/
def exC4_Y : Matrix (Fin 2) (Fin 4) ℚ := !![1, 1, -1, -1; 1/2, -1/2, 1/2, -1/2]

/-- C4 counterexample left singular vectors. -/
def exC4_U : Matrix (Fin 2) (Fin 2) ℚ := 1

/-- C4 counterexample singular values. -/
def exC4_S : Fin 2 → ℚ := ![2, 1]

/-- C4 counterexample right singular vectors. -/
def exC4_V : Matrix (Fin 2) (Fin 4) ℚ := !![1/2, 1/2, -1/2, -1/2; 1/2, -1/2, 1/2, -1/2]

/-- C4 counterexample SVD oracle. -/
def exC4_svd : Matrix (Fin 2) (Fin 4) ℚ → SvdOut 2 4 := fun _ => (exC4_U, exC4_S, exC4_V)

/-- C4 counterexample pseudo-inverse oracle. -/
def exC4_pinv : Matrix (Fin 2) (Fin 3) ℚ → Matrix (Fin 3) (Fin 2) ℚ := fun _ => 0

/-- C8 witness model: one state, two observation dimensions,
`C = [[1],[0]]` (full column rank). -/
def exC8_lds : LDSParams 1 2 1 :=
  ⟨!![0], !![1; 0], 0, !![0], !![0], ![0, 0], ![0], ![0]⟩

/-- Unwrap a synthesis result (zero output on error). -/
def getSynth {D k : ℕ} (e : Except SynthErr (SynthOut D k)) : SynthOut D k :=
  match e with
  | .ok o => o
  | .error _ => ⟨0, fun _ _ => 0, fun _ _ => 0⟩

/-- Shared trivial square-root oracle for concrete synthesis runs. -/
def zeroSqrt : ℚ → ℚ := fun _ => 0

/-- Shared trivial SVD oracle (for `np.linalg.svd(Qhat)`) for concrete
one-state synthesis runs. -/
def zeroSvdQ : Matrix (Fin 1) (Fin 1) ℚ →
    Matrix (Fin 1) (Fin 1) ℚ × (Fin 1 → ℚ) × Matrix (Fin 1) (Fin 1) ℚ :=
  fun _ => (0, ![0], 0)

/-- C6 counterexample model: `k = D = 1`, stored trajectory length
`T = 2` with states `(3, 5)`, `C = [[1]]`. -/
def exC6_lds : LDSParams 1 1 2 :=
  ⟨!![0], !![1], 0, !![0], !![3, 5], ![0], ![0], ![0]⟩

/-- Reachability invariant of the online estimator: the countdown
never exceeds the configured shift, and while some buffer slot is
still empty it still has its initial value `nShift - 1`. -/
def OnlineInv {D : ℕ} (s : OnlineDS D) : Prop :=
  s.cnt ≤ (s.nShift : ℤ) ∧ (none ∈ s.buf → s.cnt = (s.nShift : ℤ) - 1)

/-- The estimator state reached from a fresh `OnlineLinearDS` after a
sequence of `update` pushes. -/
def onlineAfter (D bufLen nShift : ℕ) (xs : List (Fin D → ℚ)) : OnlineDS D :=
  (OnlineDS.init D bufLen nShift).run xs

/-- One further push on that state: the new state and whether this
push re-identified. -/
def onlineStep (D bufLen nShift : ℕ) (xs : List (Fin D → ℚ)) (x : Fin D → ℚ) :
    OnlineDS D × Bool :=
  (onlineAfter D bufLen nShift xs).update x

/-- The buffer contents after a push. -/
def pushedBuf {D : ℕ} (s : OnlineDS D) (x : Fin D → ℚ) : List (Option (Fin D → ℚ)) :=
  (s.buf ++ [some x]).drop ((s.buf ++ [some x]).length - s.buf.length)

/-! # Theorems

General lemmas first, then one subsection per claim. -/

theorem cinv_eq_inv {n : ℕ} (M : Matrix (Fin n) (Fin n) ℚ) : cinv M = M⁻¹ := by
  rw [cinv, Matrix.inv_def]
  by_cases h : M.det = 0
  · simp [h, Ring.inverse_eq_inv]
  · simp [h, Ring.inverse_eq_inv]

/-- Each output slot of the sort holds one of the input eigenpairs. -/
theorem sortEigPairs_subset (l : List EigPair) :
    ∀ p ∈ sortEigPairs l, p ∈ l := by
  intro p hp
  have himag : ∀ q ∈ l.insertionSort fun p q => |p.1.2| ≤ |q.1.2|, q ∈ l := by
    intro q hq
    exact (List.perm_insertionSort _ l).mem_iff.mp hq
  rcases List.mem_append.mp hp with h | h
  · have h1 := (List.perm_insertionSort (fun p q : EigPair => q.1.1 ≤ p.1.1) _).mem_iff.mp h
    exact himag _ (List.mem_of_mem_filter h1)
  · exact himag _ (List.mem_of_mem_drop h)

/-- The sort step is length-preserving. -/
theorem sortEigPairs_length (l : List EigPair) :
    (sortEigPairs l).length = l.length := by
  unfold sortEigPairs
  have h1 : (l.insertionSort fun p q => |p.1.2| ≤ |q.1.2|).length = l.length :=
    List.length_insertionSort _ l
  have h2 :
      ((l.insertionSort fun p q => |p.1.2| ≤ |q.1.2|).filter
        fun p => p.1.2 = 0).length ≤ l.length := by
    calc ((l.insertionSort fun p q => |p.1.2| ≤ |q.1.2|).filter
            fun p => p.1.2 = 0).length
        ≤ (l.insertionSort fun p q => |p.1.2| ≤ |q.1.2|).length :=
          List.length_filter_le _ _
      _ = l.length := h1
  simp only [List.length_append, List.length_drop, List.length_insertionSort, h1]
  omega

/-- The eigenpair list has one entry per matrix column. -/
theorem eigPairs_length {N : ℕ} (eVals : Fin N → CQ) (eVecs : Matrix (Fin N) (Fin N) CQ) :
    (eigPairs eVals eVecs).length = N := by
  simp [eigPairs]

/-- Summing an indicator supported on the (unique) index with a given
value. -/
theorem sum_val_pivot {N : ℕ} (c : ℕ) (hc : c < N) (f : Fin N → ℚ) :
    (∑ l : Fin N, if (l : ℕ) = c then f l else 0) = f ⟨c, hc⟩ := by
  have he : ∀ l : Fin N, ((l : ℕ) = c) = (l = ⟨c, hc⟩) := fun l =>
    propext ⟨fun h => Fin.ext h, fun h => by rw [h]⟩
  simp_rw [he]
  rw [Finset.sum_ite_eq' Finset.univ (⟨c, hc⟩ : Fin N) f]
  simp

/-- Core invariant of the block-building walk: on success, columns left
of `cnt` are untouched (zero), the `J` block lives entirely in rows and
columns `≥ cnt`, and — given that every remaining eigenpair really is
an eigenpair of `A` — the assembled columns satisfy `A·Q = Q·J`. -/
theorem buildRJF_spec {N : ℕ} (A : Matrix (Fin N) (Fin N) ℚ) :
    ∀ (pairs : List EigPair) (cnt : ℕ)
      (J Q : Matrix (Fin N) (Fin N) ℚ) (X : Fin N → ℚ),
      buildRJF N cnt pairs = some (J, Q, X) →
      (∀ p ∈ pairs, isEigenpair A p.1 p.2) →
      cnt + pairs.length ≤ N →
      (∀ i j : Fin N, (j : ℕ) < cnt → Q i j = 0) ∧
      (∀ i j : Fin N, ((i : ℕ) < cnt ∨ (j : ℕ) < cnt) → J i j = 0) ∧
      A * Q = Q * J := by
  suffices h : ∀ (n : ℕ) (pairs : List EigPair), pairs.length = n →
      ∀ (cnt : ℕ) (J Q : Matrix (Fin N) (Fin N) ℚ) (X : Fin N → ℚ),
        buildRJF N cnt pairs = some (J, Q, X) →
        (∀ p ∈ pairs, isEigenpair A p.1 p.2) →
        cnt + pairs.length ≤ N →
        (∀ i j : Fin N, (j : ℕ) < cnt → Q i j = 0) ∧
        (∀ i j : Fin N, ((i : ℕ) < cnt ∨ (j : ℕ) < cnt) → J i j = 0) ∧
        A * Q = Q * J by
    intro pairs
    exact h pairs.length pairs rfl
  intro n
  induction n using Nat.strong_induction_on with
  | _ n IH =>
  intro pairs hlen cnt J Q X hb heig hle
  cases pairs with
  | nil =>
    simp only [buildRJF, Option.some.injEq, Prod.mk.injEq] at hb
    obtain ⟨hJ, hQ, hX⟩ := hb
    subst hJ; subst hQ
    refine ⟨fun i j _ => rfl, fun i j _ => rfl, ?_⟩
    simp
  | cons hd rest =>
    obtain ⟨lam, v⟩ := hd
    rw [buildRJF.eq_def] at hb
    simp only at hb
    by_cases hre : lam.2 = 0
    · -- real eigenvalue: one column
      rw [if_pos hre] at hb
      obtain ⟨⟨J0, Q0, X0⟩, hb0, hf⟩ := Option.map_eq_some'.mp hb
      simp only [Prod.mk.injEq] at hf
      obtain ⟨hJ, hQ, hX⟩ := hf
      subst hJ; subst hQ; subst hX
      have hrest : rest.length < n := by
        simp only [List.length_cons] at hlen; omega
      obtain ⟨hQ0, hJ0, hAQ⟩ :=
        IH rest.length hrest rest rfl (cnt + 1) J0 Q0 X0 hb0
          (fun p hp => heig p (List.mem_cons_of_mem _ hp))
          (by simp only [List.length_cons] at hle; omega)
      have hpair : isEigenpair A lam v := heig (lam, v) (List.mem_cons_self _ _)
      refine ⟨?_, ?_, ?_⟩
      · intro i j hj
        simp only [Matrix.of_apply]
        rw [if_neg (by omega)]
        exact hQ0 i j (by omega)
      · intro i j hij
        simp only [Matrix.of_apply]
        rw [if_neg (by push_neg; intro h1 h2; omega)]
        exact hJ0 i j (by omega)
      · ext i j
        simp only [Matrix.mul_apply, Matrix.of_apply]
        by_cases hj : (j : ℕ) = cnt
        · -- the freshly written column: A·(v/v₀) = λ·(v/v₀)
          have hL : (∑ l : Fin N,
                A i l * (if (j : ℕ) = cnt then (v (l : ℕ)).1 / (v 0).1 else Q0 l j))
              = lam.1 * (v (i : ℕ)).1 / (v 0).1 := by
            simp only [if_pos hj, ← mul_div_assoc]
            rw [← Finset.sum_div, hpair.1 i, hre]
            ring
          have hR : ∀ l : Fin N,
              (if (l : ℕ) = cnt then (v (i : ℕ)).1 / (v 0).1 else Q0 i l) *
                (if (l : ℕ) = cnt ∧ (j : ℕ) = cnt then lam.1 else J0 l j)
              = if l = j then (v (i : ℕ)).1 / (v 0).1 * lam.1 else 0 := by
            intro l
            by_cases hl : (l : ℕ) = cnt
            · have hlj : l = j := Fin.ext (by omega)
              rw [if_pos hl, if_pos ⟨hl, hj⟩, if_pos hlj]
            · have hlj : l ≠ j := fun h => hl (by rw [h, hj])
              rw [if_neg hl, if_neg fun hc => hl hc.1, if_neg hlj,
                hJ0 l j (Or.inr (by omega)), mul_zero]
          rw [hL, Finset.sum_congr rfl fun l _ => hR l,
            Finset.sum_ite_eq' Finset.univ j fun _ => (v (i : ℕ)).1 / (v 0).1 * lam.1]
          simp only [Finset.mem_univ, if_pos]
          ring
        · -- untouched columns: inherited from the recursive call
          have hL : (∑ l : Fin N,
                A i l * (if (j : ℕ) = cnt then (v (l : ℕ)).1 / (v 0).1 else Q0 l j))
              = (A * Q0) i j := by
            simp only [if_neg hj, Matrix.mul_apply]
          have hR : ∀ l : Fin N,
              (if (l : ℕ) = cnt then (v (i : ℕ)).1 / (v 0).1 else Q0 i l) *
                (if (l : ℕ) = cnt ∧ (j : ℕ) = cnt then lam.1 else J0 l j)
              = Q0 i l * J0 l j := by
            intro l
            rw [if_neg (fun hc : (l : ℕ) = cnt ∧ (j : ℕ) = cnt => hj hc.2)]
            by_cases hl : (l : ℕ) = cnt
            · rw [hJ0 l j (Or.inl (by omega)), mul_zero, mul_zero]
            · rw [if_neg hl]
          rw [hL, Finset.sum_congr rfl fun l _ => hR l, hAQ, Matrix.mul_apply]
    · -- complex eigenvalue: a 2×2 block consuming two slots
      rw [if_neg hre] at hb
      cases rest with
      | nil => exact absurd hb (by simp)
      | cons hd2 rest2 =>
        obtain ⟨⟨J0, Q0, X0⟩, hb0, hf⟩ := Option.map_eq_some'.mp hb
        simp only [Prod.mk.injEq] at hf
        obtain ⟨hJ, hQ, hX⟩ := hf
        subst hJ; subst hQ; subst hX
        have hrest : rest2.length < n := by
          simp only [List.length_cons] at hlen; omega
        obtain ⟨hQ0, hJ0, hAQ⟩ :=
          IH rest2.length hrest rest2 rfl (cnt + 2) J0 Q0 X0 hb0
            (fun p hp => heig p
              (List.mem_cons_of_mem _ (List.mem_cons_of_mem _ hp)))
            (by simp only [List.length_cons] at hle; omega)
        have hpair : isEigenpair A lam v := heig (lam, v) (List.mem_cons_self _ _)
        have hcnt1 : cnt + 1 < N := by
          simp only [List.length_cons] at hle; omega
        refine ⟨?_, ?_, ?_⟩
        · intro i j hj
          simp only [Matrix.of_apply]
          rw [if_neg (by omega), if_neg (by omega)]
          exact hQ0 i j (by omega)
        · intro i j hij
          simp only [Matrix.of_apply]
          rw [if_neg (by push_neg; intro h1 h2; omega),
            if_neg (by push_neg; intro h1 h2; omega),
            if_neg (by push_neg; intro h1 h2; omega),
            if_neg (by push_neg; intro h1 h2; omega)]
          exact hJ0 i j (by omega)
        · ext i j
          simp only [Matrix.mul_apply, Matrix.of_apply]
          by_cases hj : (j : ℕ) = cnt
          · -- first block column: A·(Re v) = a·(Re v) − b·(Im v)
            have hL : (∑ l : Fin N, A i l *
                  (if (j : ℕ) = cnt then (v (l : ℕ)).1
                    else if (j : ℕ) = cnt + 1 then (v (l : ℕ)).2 else Q0 l j))
                = lam.1 * (v (i : ℕ)).1 - lam.2 * (v (i : ℕ)).2 := by
              simp only [if_pos hj]
              exact hpair.1 i
            have hR : ∀ l : Fin N,
                (if (l : ℕ) = cnt then (v (i : ℕ)).1
                  else if (l : ℕ) = cnt + 1 then (v (i : ℕ)).2 else Q0 i l) *
                  (if (l : ℕ) = cnt ∧ (j : ℕ) = cnt then lam.1
                    else if (l : ℕ) = cnt ∧ (j : ℕ) = cnt + 1 then lam.2
                    else if (l : ℕ) = cnt + 1 ∧ (j : ℕ) = cnt then -lam.2
                    else if (l : ℕ) = cnt + 1 ∧ (j : ℕ) = cnt + 1 then lam.1
                    else J0 l j)
                = (if (l : ℕ) = cnt then (v (i : ℕ)).1 * lam.1 else 0) +
                  (if (l : ℕ) = cnt + 1 then (v (i : ℕ)).2 * -lam.2 else 0) := by
              intro l
              by_cases hl : (l : ℕ) = cnt
              · rw [if_pos hl, if_pos ⟨hl, hj⟩, if_pos hl, if_neg (by omega),
                  add_zero]
              · by_cases hl1 : (l : ℕ) = cnt + 1
                · rw [if_neg hl, if_pos hl1,
                    if_neg (fun hc : (l : ℕ) = cnt ∧ (j : ℕ) = cnt => hl hc.1),
                    if_neg (fun hc : (l : ℕ) = cnt ∧ (j : ℕ) = cnt + 1 => hl hc.1),
                    if_pos ⟨hl1, hj⟩, if_neg hl, if_pos hl1, zero_add]
                · rw [if_neg hl, if_neg hl1,
                    if_neg (fun hc : (l : ℕ) = cnt ∧ (j : ℕ) = cnt => hl hc.1),
                    if_neg (fun hc : (l : ℕ) = cnt ∧ (j : ℕ) = cnt + 1 => hl hc.1),
                    if_neg (fun hc : (l : ℕ) = cnt + 1 ∧ (j : ℕ) = cnt => hl1 hc.1),
                    if_neg (fun hc : (l : ℕ) = cnt + 1 ∧ (j : ℕ) = cnt + 1 => hl1 hc.1),
                    hJ0 l j (Or.inr (by omega)), mul_zero, if_neg hl, if_neg hl1,
                    add_zero]
            rw [hL, Finset.sum_congr rfl fun l _ => hR l, Finset.sum_add_distrib,
              sum_val_pivot cnt (by omega) fun _ => (v (i : ℕ)).1 * lam.1,
              sum_val_pivot (cnt + 1) hcnt1 fun _ => (v (i : ℕ)).2 * -lam.2]
            ring
          · by_cases hj1 : (j : ℕ) = cnt + 1
            · -- second block column: A·(Im v) = b·(Re v) + a·(Im v)
              have hL : (∑ l : Fin N, A i l *
                    (if (j : ℕ) = cnt then (v (l : ℕ)).1
                      else if (j : ℕ) = cnt + 1 then (v (l : ℕ)).2 else Q0 l j))
                  = lam.2 * (v (i : ℕ)).1 + lam.1 * (v (i : ℕ)).2 := by
                simp only [if_neg hj, if_pos hj1]
                exact hpair.2 i
              have hR : ∀ l : Fin N,
                  (if (l : ℕ) = cnt then (v (i : ℕ)).1
                    else if (l : ℕ) = cnt + 1 then (v (i : ℕ)).2 else Q0 i l) *
                    (if (l : ℕ) = cnt ∧ (j : ℕ) = cnt then lam.1
                      else if (l : ℕ) = cnt ∧ (j : ℕ) = cnt + 1 then lam.2
                      else if (l : ℕ) = cnt + 1 ∧ (j : ℕ) = cnt then -lam.2
                      else if (l : ℕ) = cnt + 1 ∧ (j : ℕ) = cnt + 1 then lam.1
                      else J0 l j)
                  = (if (l : ℕ) = cnt then (v (i : ℕ)).1 * lam.2 else 0) +
                    (if (l : ℕ) = cnt + 1 then (v (i : ℕ)).2 * lam.1 else 0) := by
                intro l
                by_cases hl : (l : ℕ) = cnt
                · rw [if_pos hl,
                    if_neg (fun hc : (l : ℕ) = cnt ∧ (j : ℕ) = cnt => hj hc.2),
                    if_pos ⟨hl, hj1⟩, if_pos hl, if_neg (by omega), add_zero]
                · by_cases hl1 : (l : ℕ) = cnt + 1
                  · rw [if_neg hl, if_pos hl1,
                      if_neg (fun hc : (l : ℕ) = cnt ∧ (j : ℕ) = cnt => hl hc.1),
                      if_neg (fun hc : (l : ℕ) = cnt ∧ (j : ℕ) = cnt + 1 => hl hc.1),
                      if_neg (fun hc : (l : ℕ) = cnt + 1 ∧ (j : ℕ) = cnt => hj hc.2),
                      if_pos ⟨hl1, hj1⟩, if_neg hl, if_pos hl1, zero_add]
                  · rw [if_neg hl, if_neg hl1,
                      if_neg (fun hc : (l : ℕ) = cnt ∧ (j : ℕ) = cnt => hl hc.1),
                      if_neg (fun hc : (l : ℕ) = cnt ∧ (j : ℕ) = cnt + 1 => hl hc.1),
                      if_neg (fun hc : (l : ℕ) = cnt + 1 ∧ (j : ℕ) = cnt => hl1 hc.1),
                      if_neg
                        (fun hc : (l : ℕ) = cnt + 1 ∧ (j : ℕ) = cnt + 1 => hl1 hc.1),
                      hJ0 l j (Or.inr (by omega)), mul_zero, if_neg hl, if_neg hl1,
                      add_zero]
              rw [hL, Finset.sum_congr rfl fun l _ => hR l, Finset.sum_add_distrib,
                sum_val_pivot cnt (by omega) fun _ => (v (i : ℕ)).1 * lam.2,
                sum_val_pivot (cnt + 1) hcnt1 fun _ => (v (i : ℕ)).2 * lam.1]
              ring
            · -- untouched columns
              have hL : (∑ l : Fin N, A i l *
                    (if (j : ℕ) = cnt then (v (l : ℕ)).1
                      else if (j : ℕ) = cnt + 1 then (v (l : ℕ)).2 else Q0 l j))
                  = (A * Q0) i j := by
                simp only [if_neg hj, if_neg hj1, Matrix.mul_apply]
              have hR : ∀ l : Fin N,
                  (if (l : ℕ) = cnt then (v (i : ℕ)).1
                    else if (l : ℕ) = cnt + 1 then (v (i : ℕ)).2 else Q0 i l) *
                    (if (l : ℕ) = cnt ∧ (j : ℕ) = cnt then lam.1
                      else if (l : ℕ) = cnt ∧ (j : ℕ) = cnt + 1 then lam.2
                      else if (l : ℕ) = cnt + 1 ∧ (j : ℕ) = cnt then -lam.2
                      else if (l : ℕ) = cnt + 1 ∧ (j : ℕ) = cnt + 1 then lam.1
                      else J0 l j)
                  = Q0 i l * J0 l j := by
                intro l
                rw [if_neg (fun hc : (l : ℕ) = cnt ∧ (j : ℕ) = cnt => hj hc.2),
                  if_neg (fun hc : (l : ℕ) = cnt ∧ (j : ℕ) = cnt + 1 => hj1 hc.2),
                  if_neg (fun hc : (l : ℕ) = cnt + 1 ∧ (j : ℕ) = cnt => hj hc.2),
                  if_neg (fun hc : (l : ℕ) = cnt + 1 ∧ (j : ℕ) = cnt + 1 => hj1 hc.2)]
                by_cases hl : (l : ℕ) = cnt
                · rw [hJ0 l j (Or.inl (by omega)), mul_zero, mul_zero]
                · by_cases hl1 : (l : ℕ) = cnt + 1
                  · rw [hJ0 l j (Or.inl (by omega)), mul_zero, mul_zero]
                  · rw [if_neg hl, if_neg hl1]
              rw [hL, Finset.sum_congr rfl fun l _ => hR l, hAQ, Matrix.mul_apply]

/-- Under full column rank, `pinvCR` is a left inverse. -/
theorem pinvCR_mul {D k : ℕ} (C : Matrix (Fin D) (Fin k) ℚ)
    (h : (C.transpose * C).det ≠ 0) : pinvCR C * C = 1 := by
  rw [pinvCR, cinv_eq_inv, Matrix.mul_assoc]
  exact Matrix.nonsing_inv_mul _ (isUnit_iff_ne_zero.mpr h)

/-! ## Claim C2: `computeRJF` similarity -/

/-- C2 (amended): whenever `computeRJF` succeeds — i.e. the `eig`
oracle output pairs genuinely satisfy `A·v = λ·v` and the assembled
eigenvector-column matrix is invertible so that `np.linalg.inv` does
not fail — the returned triple `(J, T, X)` satisfies `J = T·A·T⁻¹`
exactly.  (The un-amended universal claim fails at defective matrices:
see the counterexample.) -/
theorem C2_computeRJF_similarity {N : ℕ} (A : Matrix (Fin N) (Fin N) ℚ)
    (eVals : Fin N → CQ) (eVecs : Matrix (Fin N) (Fin N) CQ)
    (J T : Matrix (Fin N) (Fin N) ℚ) (X : Fin N → ℚ)
    (heig : ∀ j : Fin N, isEigenpair A (eVals j) (eigCol eVecs j))
    (hok : computeRJF A eVals eVecs = .ok (J, T, X)) :
    J = T * A * T⁻¹ := by
  have hmem : ∀ p ∈ sortEigPairs (eigPairs eVals eVecs), isEigenpair A p.1 p.2 := by
    intro p hp
    have h1 := sortEigPairs_subset _ p hp
    simp only [eigPairs, List.mem_map, List.mem_finRange, true_and] at h1
    obtain ⟨j, rfl⟩ := h1
    exact heig j
  have hlen : (sortEigPairs (eigPairs eVals eVecs)).length = N := by
    rw [sortEigPairs_length, eigPairs_length]
  unfold computeRJF at hok
  split at hok
  · exact absurd hok (by simp)
  · rename_i JQX J0 Q0 X0 heq
    by_cases hdet : Q0.det = 0
    · rw [if_pos hdet] at hok
      exact absurd hok (by simp)
    · rw [if_neg hdet] at hok
      have hinj := Except.ok.inj hok
      simp only [Prod.mk.injEq] at hinj
      obtain ⟨hJ, hT, hX⟩ := hinj
      subst hJ; subst hT
      subst hX
      obtain ⟨-, -, hAQ⟩ :=
        buildRJF_spec A (sortEigPairs (eigPairs eVals eVecs)) 0 J0 Q0 X0 heq hmem
          (by rw [hlen]; omega)
      have hunit : IsUnit Q0.det := isUnit_iff_ne_zero.mpr hdet
      rw [cinv_eq_inv, Matrix.nonsing_inv_nonsing_inv Q0 hunit, Matrix.mul_assoc,
        hAQ, ← Matrix.mul_assoc, Matrix.nonsing_inv_mul Q0 hunit, Matrix.one_mul]

/-- C2 witness: a concrete run.  `A = [[0,1],[1,0]]` with its genuine
eigendata succeeds and the returned triple satisfies the similarity
equation. -/
theorem C2_computeRJF_similarity_witness :
    (∀ j : Fin 2, isEigenpair exRJF_A (exRJF_vals j) (eigCol exRJF_vecs j)) ∧
    computeRJF exRJF_A exRJF_vals exRJF_vecs =
      .ok (!![1, 0; 0, -1], !![1/2, 1/2; 1/2, -1/2], ![1, 1]) ∧
    (!![1, 0; 0, -1] : Matrix (Fin 2) (Fin 2) ℚ) =
      !![1/2, 1/2; 1/2, -1/2] * exRJF_A * (!![1/2, 1/2; 1/2, -1/2] : Matrix (Fin 2) (Fin 2) ℚ)⁻¹ := by
  have h1 : ∀ j : Fin 2, isEigenpair exRJF_A (exRJF_vals j) (eigCol exRJF_vecs j) := by
    intro j
    fin_cases j <;>
      refine ⟨fun i => ?_, fun i => ?_⟩ <;> fin_cases i <;>
        norm_num [exRJF_A, exRJF_vals, exRJF_vecs, eigCol, isEigenpair,
          Fin.sum_univ_succ]
  have h2 : computeRJF exRJF_A exRJF_vals exRJF_vecs =
      .ok (!![1, 0; 0, -1], !![1/2, 1/2; 1/2, -1/2], ![1, 1]) := by
    norm_num [computeRJF, sortEigPairs, eigPairs, exRJF_A, exRJF_vals, exRJF_vecs,
      eigCol, List.finRange, List.insertionSort, List.orderedInsert, buildRJF,
      cinv, Matrix.det_fin_two, Matrix.adjugate_fin_two]
    refine ⟨?_, ?_⟩
    · funext i j
      fin_cases i <;> fin_cases j <;> norm_num
    · funext j
      fin_cases j <;> norm_num
  exact ⟨h1, h2, C2_computeRJF_similarity exRJF_A exRJF_vals exRJF_vecs _ _ _ h1 h2⟩

/-- C2 counterexample: at the spec's own (defective) MATLAB example
matrix, genuine exact eigendata assembles a singular eigenvector
matrix, `np.linalg.inv` raises `LinAlgError`, and `computeRJF` returns
no `(J, T, X)` at all — so the unrestricted "for every square real
matrix" claim fails. -/
theorem C2_computeRJF_defective_counterexample :
    (∀ j : Fin 3, isEigenpair defRJF_A (defRJF_vals j) (eigCol defRJF_vecs j)) ∧
    computeRJF defRJF_A defRJF_vals defRJF_vecs = .error "Singular matrix" := by
  constructor
  · intro j
    fin_cases j <;>
      refine ⟨fun i => ?_, fun i => ?_⟩ <;> fin_cases i <;>
        norm_num [defRJF_A, defRJF_vals, defRJF_vecs, eigCol, isEigenpair,
          Fin.sum_univ_succ]
  · norm_num [computeRJF, sortEigPairs, eigPairs, defRJF_A, defRJF_vals,
      defRJF_vecs, eigCol, List.finRange, List.insertionSort, List.orderedInsert,
      buildRJF, cinv, Matrix.det_fin_three]

/-! ## Claim C1: `computeJCFTransform` and the hard-coded reshape -/

/-- C1 (code bug): for the 3-state input above — whose real Jordan
form step succeeds with genuine eigendata — `computeJCFTransform`
raises numpy's reshape `ValueError` for *every* pseudo-inverse oracle,
because the source reshapes the solved `N²` vector with the hard-coded
target `(5, 5)` instead of `(N, N)` as its own docstring (and the
claim) state. -/
theorem C1_computeJCFTransform_reshape_bug :
    (∀ pinvO : Matrix ((Fin 3 × Fin 3) ⊕ Fin 3) (Fin 3 × Fin 3) ℚ →
        Matrix (Fin 3 × Fin 3) ((Fin 3 × Fin 3) ⊕ Fin 3) ℚ,
      computeJCFTransform pinvO exJCF_vals exJCF_vecs exJCF_A exJCF_C =
        .error "cannot reshape array into shape (5,5)") ∧
    (∀ j : Fin 3, isEigenpair exJCF_A (exJCF_vals j) (eigCol exJCF_vecs j)) := by
  constructor
  · intro pinvO
    have hR : computeRJF exJCF_A exJCF_vals exJCF_vecs =
        .ok (!![3, 0, 0; 0, 0, 0; 0, 0, 0],
          !![1/3, 1/3, 1/3; 1/3, -2/3, 1/3; 1/3, 1/3, -2/3], ![1, 1, 1]) := by
      norm_num [computeRJF, sortEigPairs, eigPairs, exJCF_A, exJCF_vals,
        exJCF_vecs, eigCol, List.finRange, List.insertionSort,
        List.orderedInsert, buildRJF, cinv, Matrix.det_fin_three]
      refine ⟨?_, ?_, ?_⟩
      · funext i j
        fin_cases i <;> fin_cases j <;> norm_num
      · funext i j
        fin_cases i <;> fin_cases j <;>
          norm_num [Matrix.adjugate_fin_three, Matrix.smul_apply]
      · funext j
        fin_cases j <;> norm_num
    unfold computeJCFTransform
    rw [hR]
    rfl
  · intro j
    fin_cases j <;>
      refine ⟨fun i => ?_, fun i => ?_⟩ <;> fin_cases i <;>
        norm_num [exJCF_A, exJCF_vals, exJCF_vecs, eigCol, isEigenpair,
          Fin.sum_univ_succ]

/-! ## Claim C3: the identification formulas -/

/-- C3: on the exact-SVD path, `suboptimalSysID` centers `Y` by its
per-dimension mean, sets `C` to the first `k` left singular vectors
and `X = diag(S[0:k])·V[0:k,:]`, fits `A = φ2·pinv(φ1)` on consecutive
state columns, sets `Q = V·Vᵀ/(T-1)` for the residual `V = φ2 - A·φ1`,
and `R` to the single pooled variance of the reconstruction residual
of the centered data. -/
theorem C3_suboptimalSysID {k D Tm : ℕ}
    (svdO : Matrix (Fin D) (Fin (Tm + 1)) ℚ → SvdOut D (Tm + 1))
    (pinvO : Matrix (Fin k) (Fin Tm) ℚ → Matrix (Fin Tm) (Fin k) ℚ)
    (Y : Matrix (Fin D) (Fin (Tm + 1)) ℚ)
    (hkD : k ≤ D) (hkT : k + 1 ≤ Tm + 1) :
    (suboptimalSysID svdO pinvO Y).Yavg = rowMean Y ∧
    (suboptimalSysID svdO pinvO Y).Chat = Matrix.of (fun d i =>
      (svdO (centered Y)).1 d
        (Fin.castLE (le_min hkD (Nat.le_of_succ_le hkT)) i)) ∧
    (suboptimalSysID svdO pinvO Y).Xhat = Matrix.of (fun i t =>
      (svdO (centered Y)).2.1 (Fin.castLE (le_min hkD (Nat.le_of_succ_le hkT)) i) *
      (svdO (centered Y)).2.2 (Fin.castLE (le_min hkD (Nat.le_of_succ_le hkT)) i) t) ∧
    (suboptimalSysID svdO pinvO Y).Ahat =
      (Matrix.of fun i (t : Fin Tm) => (suboptimalSysID svdO pinvO Y).Xhat i t.succ) *
        pinvO (Matrix.of fun i (t : Fin Tm) =>
          (suboptimalSysID svdO pinvO Y).Xhat i t.castSucc) ∧
    (suboptimalSysID svdO pinvO Y).Qhat =
      ((Tm : ℚ) + 1 - 1)⁻¹ •
        (((Matrix.of fun i (t : Fin Tm) => (suboptimalSysID svdO pinvO Y).Xhat i t.succ) -
            (suboptimalSysID svdO pinvO Y).Ahat *
              (Matrix.of fun i (t : Fin Tm) =>
                (suboptimalSysID svdO pinvO Y).Xhat i t.castSucc)) *
          ((Matrix.of fun i (t : Fin Tm) => (suboptimalSysID svdO pinvO Y).Xhat i t.succ) -
            (suboptimalSysID svdO pinvO Y).Ahat *
              (Matrix.of fun i (t : Fin Tm) =>
                (suboptimalSysID svdO pinvO Y).Xhat i t.castSucc)).transpose) ∧
    (suboptimalSysID svdO pinvO Y).Rhat =
      popVar (centered Y -
        (suboptimalSysID svdO pinvO Y).Chat * (suboptimalSysID svdO pinvO Y).Xhat) := by
  have hmin : k ≤ min D (Tm + 1) := le_min hkD (Nat.le_of_succ_le hkT)
  refine ⟨rfl, ?_, ?_, rfl, ?_, rfl⟩
  · ext d i
    show (if h : (i : ℕ) < min D (Tm + 1) then (svdO (centered Y)).1 d ⟨i, h⟩ else 0) = _
    rw [dif_pos (lt_of_lt_of_le i.isLt hmin)]
    rfl
  · ext i t
    show (if h : (i : ℕ) < min D (Tm + 1) then
        (svdO (centered Y)).2.1 ⟨i, h⟩ * (svdO (centered Y)).2.2 ⟨i, h⟩ t else 0) = _
    rw [dif_pos (lt_of_lt_of_le i.isLt hmin)]
    rfl
  · show ((Tm : ℚ))⁻¹ • _ = ((Tm : ℚ) + 1 - 1)⁻¹ • _
    rw [add_sub_cancel_right]
    rfl

/-- C3 witness: the hypotheses hold and the conclusion follows at the
concrete run above. -/
theorem C3_suboptimalSysID_witness :
    (1 ≤ 1) ∧ (1 + 1 ≤ 1 + 1) ∧
    ((suboptimalSysID exID_svd exID_pinv exID_Y).Yavg = rowMean exID_Y ∧
     (suboptimalSysID exID_svd exID_pinv exID_Y).Chat = Matrix.of (fun d i =>
       (exID_svd (centered exID_Y)).1 d
         (Fin.castLE (le_min (Nat.le_refl 1) (Nat.le_of_succ_le (Nat.le_refl 2))) i)) ∧
     (suboptimalSysID exID_svd exID_pinv exID_Y).Xhat = Matrix.of (fun i t =>
       (exID_svd (centered exID_Y)).2.1
         (Fin.castLE (le_min (Nat.le_refl 1) (Nat.le_of_succ_le (Nat.le_refl 2))) i) *
       (exID_svd (centered exID_Y)).2.2
         (Fin.castLE (le_min (Nat.le_refl 1) (Nat.le_of_succ_le (Nat.le_refl 2))) i) t) ∧
     (suboptimalSysID exID_svd exID_pinv exID_Y).Ahat =
       (Matrix.of fun i (t : Fin 1) =>
         (suboptimalSysID exID_svd exID_pinv exID_Y).Xhat i t.succ) *
         exID_pinv (Matrix.of fun i (t : Fin 1) =>
           (suboptimalSysID exID_svd exID_pinv exID_Y).Xhat i t.castSucc) ∧
     (suboptimalSysID exID_svd exID_pinv exID_Y).Qhat =
       ((1 : ℚ) + 1 - 1)⁻¹ •
         (((Matrix.of fun i (t : Fin 1) =>
             (suboptimalSysID exID_svd exID_pinv exID_Y).Xhat i t.succ) -
             (suboptimalSysID exID_svd exID_pinv exID_Y).Ahat *
               (Matrix.of fun i (t : Fin 1) =>
                 (suboptimalSysID exID_svd exID_pinv exID_Y).Xhat i t.castSucc)) *
           ((Matrix.of fun i (t : Fin 1) =>
             (suboptimalSysID exID_svd exID_pinv exID_Y).Xhat i t.succ) -
             (suboptimalSysID exID_svd exID_pinv exID_Y).Ahat *
               (Matrix.of fun i (t : Fin 1) =>
                 (suboptimalSysID exID_svd exID_pinv exID_Y).Xhat i t.castSucc)).transpose) ∧
     (suboptimalSysID exID_svd exID_pinv exID_Y).Rhat =
       popVar (centered exID_Y -
         (suboptimalSysID exID_svd exID_pinv exID_Y).Chat *
           (suboptimalSysID exID_svd exID_pinv exID_Y).Xhat)) :=
  ⟨Nat.le_refl 1, Nat.le_refl 2,
    C3_suboptimalSysID exID_svd exID_pinv exID_Y (Nat.le_refl 1) (Nat.le_refl 2)⟩

/-! ## Claim C4: the literal `initM0` -/

/-- C4 (amended): `initM0 = np.mean(Xhat[:,0], axis=1)` averages each
row of the `k × 1` first-column matrix, i.e. it stores `X[:,0]`
*itself* — an exact no-op, not a scalar mean across the state
dimension; and `initS0` is initialized to the zero vector, so no
initial-state uncertainty is estimated. -/
theorem C4_initM0_literal {k D Tm : ℕ}
    (svdO : Matrix (Fin D) (Fin (Tm + 1)) ℚ → SvdOut D (Tm + 1))
    (pinvO : Matrix (Fin k) (Fin Tm) ℚ → Matrix (Fin Tm) (Fin k) ℚ)
    (Y : Matrix (Fin D) (Fin (Tm + 1)) ℚ) :
    (suboptimalSysID svdO pinvO Y).initM0 =
      (fun i => (suboptimalSysID svdO pinvO Y).Xhat i 0) ∧
    (suboptimalSysID svdO pinvO Y).initS0 = fun _ => 0 := by
  constructor
  · funext i
    show (∑ _j : Fin 1, (suboptimalSysID svdO pinvO Y).Xhat i 0) / (1 : ℚ) = _
    simp
  · rfl

/-- C4 counterexample: under a genuine exact SVD of the centered data
(orthonormality, factorization and descending order verified below),
the stored `initM0` is `X[:,0] = (1, 1/2)`, not the claim's scalar
mean `3/4` broadcast across the state dimension. -/
theorem C4_initM0_counterexample :
    (suboptimalSysID exC4_svd exC4_pinv exC4_Y).initM0 ≠
      (fun _ => (∑ i, (suboptimalSysID exC4_svd exC4_pinv exC4_Y).Xhat i 0) / 2) ∧
    (Matrix.of fun i j => ∑ d, exC4_U d i * exC4_U d j) = 1 ∧
    (Matrix.of fun i j => ∑ t, exC4_V i t * exC4_V j t) = 1 ∧
    (Matrix.of fun d t => ∑ i, exC4_U d i * exC4_S i * exC4_V i t) = centered exC4_Y ∧
    exC4_S 1 ≤ exC4_S 0 ∧ 0 ≤ exC4_S 1 := by
  refine ⟨?_, ?_, ?_, ?_, by norm_num [exC4_S], by norm_num [exC4_S]⟩
  · intro h
    have h0 := congrFun h 0
    norm_num [suboptimalSysID, exC4_svd, exC4_U, exC4_S, exC4_V,
      Fin.sum_univ_succ, Matrix.of_apply] at h0
  · ext i j
    fin_cases i <;> fin_cases j <;>
      norm_num [exC4_U, Fin.sum_univ_succ, Matrix.one_apply]
  · ext i j
    fin_cases i <;> fin_cases j <;>
      norm_num [exC4_V, Fin.sum_univ_succ, Matrix.one_apply]
  · ext d t
    fin_cases d <;> fin_cases t <;>
      norm_num [exC4_U, exC4_S, exC4_V, exC4_Y, centered, rowMean,
        Fin.sum_univ_succ, Matrix.one_apply]

/-! ## Claim C5: the state-space map formulas -/

/-- C5: for models of equal state order, `stateSpaceMap` computes
`F = pinv(C_target)·C_source` (the target being the model whose
parameters get transformed, `lds2`), returns a new model with
`C = C_target·F`, `A = Fᵀ·A_target·F`, `Q = Fᵀ·Q_target·F`, `R`,
`Yavg` (and the state trajectory) copied unchanged from the target,
`initM0 = Fᵀ·initM0_target`, `initS0 = diag(Fᵀ·diag(initS0_target)·F)`,
together with the sum of element-wise absolute differences of the
un-transformed target and source values of `C, A, Q, R, initM0,
initS0, Yavg`. -/
theorem C5_stateSpaceMap {k D T1 T2 : ℕ}
    (pinvO : Matrix (Fin D) (Fin k) ℚ → Matrix (Fin k) (Fin D) ℚ)
    (lds1 : LDSParams k D T1) (lds2 : LDSParams k D T2) :
    stateSpaceMap pinvO lds1 lds2 =
      (⟨(pinvO lds2.Chat * lds1.Chat).transpose * lds2.Ahat *
          (pinvO lds2.Chat * lds1.Chat),
        lds2.Chat * (pinvO lds2.Chat * lds1.Chat),
        lds2.Rhat,
        (pinvO lds2.Chat * lds1.Chat).transpose * lds2.Qhat *
          (pinvO lds2.Chat * lds1.Chat),
        lds2.Xhat,
        lds2.Yavg,
        (pinvO lds2.Chat * lds1.Chat).transpose.mulVec lds2.initM0,
        fun i => ((pinvO lds2.Chat * lds1.Chat).transpose *
          Matrix.diagonal lds2.initS0 * (pinvO lds2.Chat * lds1.Chat)) i i⟩,
       (∑ d, ∑ i, |lds2.Chat d i - lds1.Chat d i|) +
       (∑ i, ∑ j, |lds2.Ahat i j - lds1.Ahat i j|) +
       (∑ i, ∑ j, |lds2.Qhat i j - lds1.Qhat i j|) +
       |lds2.Rhat - lds1.Rhat| +
       (∑ i, |lds2.initM0 i - lds1.initM0 i|) +
       (∑ i, |lds2.initS0 i - lds1.initS0 i|) +
       (∑ d, |lds2.Yavg d - lds1.Yavg d|)) := rfl

/-! ## Claim C8: self-alignment -/

/-- C8: aligning a fully populated model against itself with the
Moore–Penrose pseudo-inverse (`pinvCR`, the value `np.linalg.pinv`
takes on full-column-rank input; full column rank is encoded as the
invertibility of the Gram matrix `CᵀC`) yields the identity alignment
transform `F` exactly, and the discrepancy metric is exactly `0`. -/
theorem C8_selfMap_identity {k D T : ℕ} (lds : LDSParams k D T)
    (h : (lds.Chat.transpose * lds.Chat).det ≠ 0) :
    alignF pinvCR lds lds = 1 ∧ (stateSpaceMap pinvCR lds lds).2 = 0 := by
  constructor
  · unfold alignF
    exact pinvCR_mul _ h
  · show (∑ d, ∑ i, |lds.Chat d i - lds.Chat d i|) +
      (∑ i, ∑ j, |lds.Ahat i j - lds.Ahat i j|) +
      (∑ i, ∑ j, |lds.Qhat i j - lds.Qhat i j|) +
      |lds.Rhat - lds.Rhat| +
      (∑ i, |lds.initM0 i - lds.initM0 i|) +
      (∑ i, |lds.initS0 i - lds.initS0 i|) +
      (∑ d, |lds.Yavg d - lds.Yavg d|) = 0
    simp

/-- C8 witness: the full-column-rank hypothesis holds for the model
above and self-alignment gives `F = 1` and discrepancy `0`. -/
theorem C8_selfMap_identity_witness :
    (exC8_lds.Chat.transpose * exC8_lds.Chat).det ≠ 0 ∧
    (alignF pinvCR exC8_lds exC8_lds = 1 ∧
      (stateSpaceMap pinvCR exC8_lds exC8_lds).2 = 0) := by
  have h : (exC8_lds.Chat.transpose * exC8_lds.Chat).det ≠ 0 := by
    norm_num [exC8_lds, Matrix.det_fin_one, Matrix.mul_apply, Fin.sum_univ_succ]
  exact ⟨h, C8_selfMap_identity exC8_lds h⟩

/-! ## Claim C9: readiness checking -/

/-- C9: `check()` is `False` on a freshly constructed model; on any
object state it is `True` exactly when every one of the eight numeric
parameter fields is populated (it never inspects the stored values);
and a successful identification populates all of them, after which the
model is marked ready. -/
theorem C9_check_readiness :
    (∀ (k D T : ℕ) (a v : Bool), (mkLinearDS k D T a v).check = false) ∧
    (∀ (k D T : ℕ) (s : LinearDSObj k D T), s.check = true ↔
      (s.Ahat.isSome = true ∧ s.Chat.isSome = true ∧ s.Rhat.isSome = true ∧
       s.Qhat.isSome = true ∧ s.Xhat.isSome = true ∧ s.Yavg.isSome = true ∧
       s.initM0.isSome = true ∧ s.initS0.isSome = true)) ∧
    (∀ (k D Tm : ℕ) (svdO : Matrix (Fin D) (Fin (Tm + 1)) ℚ → SvdOut D (Tm + 1))
       (pinvO : Matrix (Fin k) (Fin Tm) ℚ → Matrix (Fin Tm) (Fin k) ℚ)
       (s : LinearDSObj k D (Tm + 1)) (Y : Matrix (Fin D) (Fin (Tm + 1)) ℚ),
      (objSysID svdO pinvO s Y).check = true ∧
      (objSysID svdO pinvO s Y).ready = true) := by
  refine ⟨fun k D T a v => rfl, ?_, ?_⟩
  · intro k D T s
    simp [LinearDSObj.check, Bool.and_eq_true, and_assoc]
  · intro k D Tm svdO pinvO s Y
    exact ⟨rfl, rfl⟩

/-! ## Claim C6: synthesis with mode `"sq"` -/

/-- C6 (amended): on a ready model, mode `"sq"` suppresses all noise
(the output is one fixed rational matrix, independent of the noise
oracles) but — because `'s'` is in the mode — *reuses* the original
estimated states and overrides `tau` with the stored trajectory length
`T`: the observation matrix is `D × T` (not `D × tau`) with columns
`C·X[:,t] + Yavg`, and the returned state matrix is the stored
trajectory itself.  (Exact rational entries: no NaN/Inf can arise.) -/
theorem C6_synthesize_sq {k D T : ℕ} (sqrtO : ℚ → ℚ)
    (svdQO : Matrix (Fin k) (Fin k) ℚ →
      Matrix (Fin k) (Fin k) ℚ × (Fin k → ℚ) × Matrix (Fin k) (Fin k) ℚ)
    (p : LDSParams k D T) (tau : ℕ) :
    (synthesize sqrtO svdQO p true tau (some ['s', 'q'])).toOption.isSome = true ∧
    (getSynth (synthesize sqrtO svdQO p true tau (some ['s', 'q']))).tauEff = T ∧
    (∀ (d : Fin D) (t : Fin T),
      (getSynth (synthesize sqrtO svdQO p true tau (some ['s', 'q']))).obsI d t =
        (∑ i, p.Chat d i * p.Xhat i t) + p.Yavg d) ∧
    (∀ (i : Fin k) (t : Fin T),
      (getSynth (synthesize sqrtO svdQO p true tau (some ['s', 'q']))).stX i t =
        p.Xhat i t) := by
  refine ⟨rfl, rfl, ?_, ?_⟩
  · intro d t
    show (if hd : (d : ℕ) < D then
        if (t : ℕ) < T then
          (∑ i, p.Chat ⟨d, hd⟩ i *
            (if h : (t : ℕ) < T then p.Xhat i ⟨t, h⟩ else 0)) + p.Yavg ⟨d, hd⟩
        else 0
      else 0) = _
    rw [dif_pos d.isLt, if_pos t.isLt]
    simp only [dif_pos t.isLt, Fin.eta]
  · intro i t
    show (if hi : (i : ℕ) < k then
        if (t : ℕ) < T then
          (if h : (t : ℕ) < T then p.Xhat ⟨i, hi⟩ ⟨t, h⟩ else 0)
        else 0
      else 0) = _
    rw [dif_pos i.isLt, if_pos t.isLt]
    simp only [dif_pos t.isLt, Fin.eta]

/-- C6 counterexample: synthesizing `tau = 50` frames with mode `"sq"`
on the ready model above returns a `1 × 2` observation matrix (the
stored trajectory length, not `50`), and its state output reuses the
original estimated states (`X[0,1] = 5`). -/
theorem C6_synthesize_sq_counterexample :
    (getSynth (synthesize zeroSqrt zeroSvdQ exC6_lds true 50 (some ['s', 'q']))).tauEff
        = 2 ∧
    (2 : ℕ) ≠ 50 ∧
    (getSynth (synthesize zeroSqrt zeroSvdQ exC6_lds true 50 (some ['s', 'q']))).stX 0 1
        = 5 := by
  refine ⟨rfl, by omega, ?_⟩
  show (if hi : (0 : ℕ) < 1 then
      if (1 : ℕ) < 2 then
        (if h : (1 : ℕ) < 2 then exC6_lds.Xhat ⟨0, hi⟩ ⟨1, h⟩ else 0)
      else 0
    else 0) = 5
  norm_num [exC6_lds]

/-! ## Claim C10: the empty synthesis mode -/

/-- C10: on a ready model, only `mode = None` raises the missing-mode
error; the empty mode string is accepted as a mode with no flags set,
and the default process-noise injection path is taken — which is
observable because that path's first iteration hits the nonexistent
`np.rand` (the embedded `npRandMissing` outcome), not the
`InvalidConfig` error. -/
theorem C10_empty_mode {k D T : ℕ} (sqrtO : ℚ → ℚ)
    (svdQO : Matrix (Fin k) (Fin k) ℚ →
      Matrix (Fin k) (Fin k) ℚ × (Fin k → ℚ) × Matrix (Fin k) (Fin k) ℚ)
    (p : LDSParams k D T) (tau : ℕ) :
    (0 < tau →
      synthesize sqrtO svdQO p true tau (some []) = .error .npRandMissing) ∧
    synthesize sqrtO svdQO p true tau none = .error .noMode ∧
    (∀ m : List Char, synthesize sqrtO svdQO p true tau (some m) ≠ .error .noMode) ∧
    ([] : List Char).contains 's' = false ∧
    ([] : List Char).contains 'q' = false ∧
    ([] : List Char).contains 'r' = false := by
  refine ⟨?_, rfl, ?_, rfl, rfl, rfl⟩
  · intro ht
    show (if ¬(false : Bool) = true ∧ ¬(false : Bool) = true ∧ 0 < tau
        then Except.error SynthErr.npRandMissing
        else _) = Except.error SynthErr.npRandMissing
    rw [if_pos ⟨by simp, by simp, ht⟩]
  · intro m h
    unfold synthesize at h
    simp only [Bool.true_eq_false, if_false] at h
    split at h
    all_goals split at h
    all_goals try exact absurd (Except.error.inj h) (by decide)
    all_goals split at h
    all_goals try exact absurd (Except.error.inj h) (by decide)
    all_goals exact absurd h (by simp)

/-- C10 witness: a concrete ready one-state model, `tau = 50`. -/
theorem C10_empty_mode_witness :
    (0 < 50 → synthesize zeroSqrt zeroSvdQ exC8_lds true 50 (some []) =
      .error .npRandMissing) ∧
    synthesize zeroSqrt zeroSvdQ exC8_lds true 50 none = .error .noMode ∧
    (0 < 50) ∧
    synthesize zeroSqrt zeroSvdQ exC8_lds true 50 (some []) = .error .npRandMissing := by
  have h := C10_empty_mode zeroSqrt zeroSvdQ exC8_lds 50
  exact ⟨h.1, h.2.1, by omega, h.1 (by omega)⟩

/-! ## Claim C7: the online estimator state machine -/

theorem init_inv (D bufLen nShift : ℕ) : OnlineInv (OnlineDS.init D bufLen nShift) :=
  ⟨by simp [OnlineDS.init], fun _ => rfl⟩

theorem update_eq_filling {D : ℕ} (s : OnlineDS D) (x : Fin D → ℚ)
    (hm : none ∈ pushedBuf s x) :
    s.update x = (⟨pushedBuf s x, s.nShift, s.cnt, s.fitted⟩, false) := by
  have hm2 : none ∈ (s.buf ++ [some x]).drop ((s.buf ++ [some x]).length - s.buf.length) := hm
  simp only [OnlineDS.update]
  rw [if_pos hm2]
  rfl

theorem update_eq_fire {D : ℕ} (s : OnlineDS D) (x : Fin D → ℚ)
    (hm : none ∉ pushedBuf s x) (hf : s.cnt - 1 = 0 ∨ s.nShift = 1) :
    s.update x =
      (⟨pushedBuf s x, s.nShift, (s.nShift : ℤ), some (pushedBuf s x)⟩, true) := by
  have hm2 : none ∉ (s.buf ++ [some x]).drop ((s.buf ++ [some x]).length - s.buf.length) := hm
  simp only [OnlineDS.update]
  rw [if_neg hm2, if_pos hf]
  rfl

theorem update_eq_tick {D : ℕ} (s : OnlineDS D) (x : Fin D → ℚ)
    (hm : none ∉ pushedBuf s x) (hf : ¬(s.cnt - 1 = 0 ∨ s.nShift = 1)) :
    s.update x = (⟨pushedBuf s x, s.nShift, s.cnt - 1, s.fitted⟩, false) := by
  have hm2 : none ∉ (s.buf ++ [some x]).drop ((s.buf ++ [some x]).length - s.buf.length) := hm
  simp only [OnlineDS.update]
  rw [if_neg hm2, if_neg hf]
  rfl

theorem mem_buf_of_mem_pushedBuf {D : ℕ} (s : OnlineDS D) (x : Fin D → ℚ)
    (hm : none ∈ pushedBuf s x) : none ∈ s.buf := by
  rcases List.mem_append.mp (List.mem_of_mem_drop hm) with h2 | h2
  · exact h2
  · simp at h2

theorem update_inv {D : ℕ} (s : OnlineDS D) (x : Fin D → ℚ) (h : OnlineInv s) :
    OnlineInv (s.update x).1 := by
  by_cases hm : none ∈ pushedBuf s x
  · rw [update_eq_filling s x hm]
    exact ⟨h.1, fun _ => h.2 (mem_buf_of_mem_pushedBuf s x hm)⟩
  · by_cases hf : s.cnt - 1 = 0 ∨ s.nShift = 1
    · rw [update_eq_fire s x hm hf]
      exact ⟨le_refl _, fun hmem => absurd hmem hm⟩
    · rw [update_eq_tick s x hm hf]
      refine ⟨?_, fun hmem => absurd hmem hm⟩
      have h1 := h.1
      show s.cnt - 1 ≤ (s.nShift : ℤ)
      omega

theorem update_nShift {D : ℕ} (s : OnlineDS D) (x : Fin D → ℚ) :
    (s.update x).1.nShift = s.nShift := by
  by_cases hm : none ∈ pushedBuf s x
  · rw [update_eq_filling s x hm]
  · by_cases hf : s.cnt - 1 = 0 ∨ s.nShift = 1
    · rw [update_eq_fire s x hm hf]
    · rw [update_eq_tick s x hm hf]

theorem run_inv {D : ℕ} (s : OnlineDS D) (xs : List (Fin D → ℚ)) (h : OnlineInv s) :
    OnlineInv (s.run xs) := by
  induction xs generalizing s with
  | nil => exact h
  | cons a l ih => exact ih _ (update_inv s a h)

theorem run_nShift {D : ℕ} (s : OnlineDS D) (xs : List (Fin D → ℚ)) :
    (s.run xs).nShift = s.nShift := by
  induction xs generalizing s with
  | nil => rfl
  | cons a l ih =>
    rw [show OnlineDS.run s (a :: l) = OnlineDS.run (s.update a).1 l from rfl, ih,
      update_nShift]

/-- C7: after any sequence of pushes from a freshly constructed
estimator, one more push behaves as the claim states.  While a buffer
slot is still empty (checked, as in the source, after the push) the
update neither decrements the countdown nor re-identifies, and
`hasChanged()` is false.  Once the buffer is full, re-identification —
keyed on the buffer's current contents (`fitted`) — happens exactly
when the decremented countdown reaches zero or whenever `nShift = 1`;
the countdown then resets to `nShift`, otherwise it keeps the
decremented value; and `hasChanged()` is true exactly after a reset. -/
theorem C7_online_update {D bufLen nShift : ℕ} (_hs : 1 ≤ nShift)
    (xs : List (Fin D → ℚ)) (x : Fin D → ℚ) :
    (none ∈ (onlineStep D bufLen nShift xs x).1.buf →
      (onlineStep D bufLen nShift xs x).2 = false ∧
      (onlineStep D bufLen nShift xs x).1.cnt = (onlineAfter D bufLen nShift xs).cnt ∧
      (onlineStep D bufLen nShift xs x).1.fitted =
        (onlineAfter D bufLen nShift xs).fitted ∧
      (onlineStep D bufLen nShift xs x).1.hasChanged = false) ∧
    (none ∉ (onlineStep D bufLen nShift xs x).1.buf →
      ((onlineStep D bufLen nShift xs x).2 = true ↔
        ((onlineAfter D bufLen nShift xs).cnt - 1 = 0 ∨ nShift = 1)) ∧
      (onlineStep D bufLen nShift xs x).1.cnt =
        (if (onlineStep D bufLen nShift xs x).2 = true then (nShift : ℤ)
          else (onlineAfter D bufLen nShift xs).cnt - 1) ∧
      ((onlineStep D bufLen nShift xs x).1.hasChanged = true ↔
        (onlineStep D bufLen nShift xs x).2 = true) ∧
      ((onlineStep D bufLen nShift xs x).2 = true →
        (onlineStep D bufLen nShift xs x).1.fitted =
          some (onlineStep D bufLen nShift xs x).1.buf)) := by
  set s : OnlineDS D := onlineAfter D bufLen nShift xs with hsdef
  have hstep : onlineStep D bufLen nShift xs x = s.update x := rfl
  rw [hstep]
  have hinv : OnlineInv s := run_inv _ xs (init_inv D bufLen nShift)
  have hnsh : s.nShift = nShift := run_nShift _ xs
  by_cases hm : none ∈ pushedBuf s x
  · rw [update_eq_filling s x hm]
    have hcnt0 : s.cnt = (nShift : ℤ) - 1 := by
      rw [← hnsh]
      exact hinv.2 (mem_buf_of_mem_pushedBuf s x hm)
    constructor
    · intro _
      refine ⟨rfl, rfl, rfl, ?_⟩
      show decide (s.cnt = (s.nShift : ℤ)) = false
      rw [hcnt0, hnsh]
      simp only [decide_eq_false_iff_not]
      omega
    · intro hnm
      exact absurd hm hnm
  · by_cases hf : s.cnt - 1 = 0 ∨ s.nShift = 1
    · rw [update_eq_fire s x hm hf]
      constructor
      · intro hmem
        exact absurd hmem hm
      · intro _
        refine ⟨?_, ?_, ?_, fun _ => rfl⟩
        · simpa [hnsh] using hf
        · simp [hnsh]
        · show (decide ((s.nShift : ℤ) = (s.nShift : ℤ)) = true) ↔ _
          simp
    · rw [update_eq_tick s x hm hf]
      constructor
      · intro hmem
        exact absurd hmem hm
      · intro _
        rw [hnsh] at hf
        refine ⟨?_, by simp, ?_, ?_⟩
        · simp only [Bool.false_eq_true, false_iff]
          exact hf
        · show (decide (s.cnt - 1 = (s.nShift : ℤ)) = true) ↔ _
          have h1 := hinv.1
          rw [hnsh] at h1
          simp only [decide_eq_true_eq, hnsh, Bool.false_eq_true, iff_false]
          omega
        · intro hx
          simp at hx

/-- C7 witness: `bufLen = 1`, `nShift = 1`, first push on a fresh
estimator. -/
theorem C7_online_update_witness :
    (1 ≤ 1) ∧
    ((none ∈ (onlineStep 1 1 1 [] fun _ => 0).1.buf →
       (onlineStep 1 1 1 [] fun _ => 0).2 = false ∧
       (onlineStep 1 1 1 [] fun _ => 0).1.cnt = (onlineAfter 1 1 1 []).cnt ∧
       (onlineStep 1 1 1 [] fun _ => 0).1.fitted = (onlineAfter 1 1 1 []).fitted ∧
       (onlineStep 1 1 1 [] fun _ => 0).1.hasChanged = false) ∧
     (none ∉ (onlineStep 1 1 1 [] fun _ => 0).1.buf →
       ((onlineStep 1 1 1 [] fun _ => 0).2 = true ↔
         ((onlineAfter 1 1 1 []).cnt - 1 = 0 ∨ 1 = 1)) ∧
       (onlineStep 1 1 1 [] fun _ => 0).1.cnt =
         (if (onlineStep 1 1 1 [] fun _ => 0).2 = true then ((1 : ℕ) : ℤ)
           else (onlineAfter 1 1 1 []).cnt - 1) ∧
       ((onlineStep 1 1 1 [] fun _ => 0).1.hasChanged = true ↔
         (onlineStep 1 1 1 [] fun _ => 0).2 = true) ∧
       ((onlineStep 1 1 1 [] fun _ => 0).2 = true →
         (onlineStep 1 1 1 [] fun _ => 0).1.fitted =
           some (onlineStep 1 1 1 [] fun _ => 0).1.buf))) :=
  ⟨Nat.le_refl 1, C7_online_update (Nat.le_refl 1) [] fun _ => 0⟩

end PyDSTK
